import Mathlib

/-!
# Verification of the Morse codec
(`src/services/morse-service/src/services/morseTranslator.ts`)

Shallow embedding of the `MorseTranslator` module. JS strings are modelled as
`List Char`; a JS value that may be `null`/`undefined`/non-string is modelled
as `Option (List Char)` (`none` = not a string). Thrown `Error`s are modelled
as `Except MorseError` results, with the error taxonomy of the spec
(`InvalidInput`, `UnsupportedCharacter`, `InvalidMorseCode`, plus the
dispatch-level errors of `translate`).
-/

set_option autoImplicit false

namespace MorseCodec

/-- The character class matched by the regex `\s` (and removed by
`String.prototype.trim`): space, tab, line feed, vertical tab, form feed,
carriage return, NBSP and the BOM.  Exotic Unicode space separators are
outside the modelled character domain. -/
def isJsWhitespace (c : Char) : Bool :=
  c = ' ' || c = '\t' || c = '\n' || c = '\x0b' || c = '\x0c' || c = '\r' ||
  c = ' ' || c = '﻿'

/-- First-match association-list lookup, modelling a JS own-property read
on an object whose keys are pairwise distinct. -/
def assocLookup {α β : Type} [DecidableEq α] : List (α × β) → α → Option β
  | [], _ => none
  | (k, v) :: rest, a => if a = k then some v else assocLookup rest a

/-- The ASCII simple case mapping.  Models `String.prototype.toUpperCase`
per character: the symbol table's alphabet (uppercase letters, digits,
punctuation, space) and the lowercase ASCII letters are exactly the
characters the codec's behaviour depends on, and on them the JS full
Unicode mapping agrees with this table. -/
def lowerUpperPairs : List (Char × Char) :=
  [('a', 'A'), ('b', 'B'), ('c', 'C'), ('d', 'D'), ('e', 'E'), ('f', 'F'),
   ('g', 'G'), ('h', 'H'), ('i', 'I'), ('j', 'J'), ('k', 'K'), ('l', 'L'),
   ('m', 'M'), ('n', 'N'), ('o', 'O'), ('p', 'P'), ('q', 'Q'), ('r', 'R'),
   ('s', 'S'), ('t', 'T'), ('u', 'U'), ('v', 'V'), ('w', 'W'), ('x', 'X'),
   ('y', 'Y'), ('z', 'Z')]

/-- Per-character model of `text.toUpperCase()`. -/
def jsToUpper (c : Char) : Char :=
  (assocLookup lowerUpperPairs c).getD c

/-- `MORSE_CODE_MAP`, in the textual order of the source literal
(letters, then numbers, then punctuation, then the space key). -/
def MORSE_CODE_MAP : List (Char × List Char) :=
  [ -- Letters
   ('A', ".-".data), ('B', "-...".data), ('C', "-.-.".data), ('D', "-..".data),
   ('E', ".".data), ('F', "..-.".data),
   ('G', "--.".data), ('H', "....".data), ('I', "..".data), ('J', ".---".data),
   ('K', "-.-".data), ('L', ".-..".data),
   ('M', "--".data), ('N', "-.".data), ('O', "---".data), ('P', ".--.".data),
   ('Q', "--.-".data), ('R', ".-.".data),
   ('S', "...".data), ('T', "-".data), ('U', "..-".data), ('V', "...-".data),
   ('W', ".--".data), ('X', "-..-".data),
   ('Y', "-.--".data), ('Z', "--..".data),
   -- Numbers
   ('0', "-----".data), ('1', ".----".data), ('2', "..---".data),
   ('3', "...--".data), ('4', "....-".data),
   ('5', ".....".data), ('6', "-....".data), ('7', "--...".data),
   ('8', "---..".data), ('9', "----.".data),
   -- Punctuation
   ('.', ".-.-.-".data), (',', "--..--".data), ('?', "..--..".data),
   ('\'', ".----.".data), ('!', "-.-.--".data),
   ('/', "-..-.".data), ('(', "-.--.".data), (')', "-.--.-".data),
   ('&', ".-...".data), (':', "---...".data),
   (';', "-.-.-.".data), ('=', "-...-".data), ('+', ".-.-.".data),
   ('-', "-....-".data), ('_', "..--.-".data),
   ('"', ".-..-.".data), ('$', "...-..-".data), ('@', ".--.-.".data),
   (' ', "/".data)]

/-- The own-property enumeration order of the JS object literal
`MORSE_CODE_MAP`, as observed by `Object.keys` and `Object.entries`:
per ECMA-262 `OrdinaryOwnPropertyKeys`, array-index keys (here the digit
keys `'0'`–`'9'`) come first in ascending numeric order, followed by the
remaining string keys in insertion order.  The digit entries appear in the
source literal already in ascending order, so filtering preserves it. -/
def morseCodeMapEntries : List (Char × List Char) :=
  MORSE_CODE_MAP.filter (fun p => p.1.isDigit) ++
  MORSE_CODE_MAP.filter (fun p => !p.1.isDigit)

/-- `MORSE_CODE_MAP[char]` (also used for `hasOwnProperty`). Keys are
pairwise distinct, so the textual order of entries is irrelevant here. -/
def lookupMorse (c : Char) : Option (List Char) :=
  assocLookup MORSE_CODE_MAP c

/-- `TEXT_MAP = Object.fromEntries(Object.entries(MORSE_CODE_MAP).map(([t,m]) => [m,t]))`.
`Object.fromEntries` keeps the last binding of a duplicated key, so a
first-match lookup over the reversed entry list realizes it. -/
def TEXT_MAP : List (List Char × Char) :=
  (morseCodeMapEntries.map (fun p => (p.2, p.1))).reverse

/-- `TEXT_MAP[morseChar]`. -/
def lookupText (tok : List Char) : Option Char :=
  assocLookup TEXT_MAP tok

/-- Error taxonomy of the spec (§7); the source throws `Error` with the
corresponding messages, carrying the offending character / token. -/
inductive MorseError : Type where
  | InvalidInput : MorseError
  | UnsupportedCharacter : Char → MorseError
  | InvalidMorseCode : List Char → MorseError
  | MissingInput : MorseError
  | UnsupportedCharacters : MorseError
  | InvalidFormat : MorseError
deriving DecidableEq, Repr

/-- The callback of `textToMorse`'s `.map`: `' '` becomes the token `/`,
any other character is looked up in `MORSE_CODE_MAP`; a missing entry
throws `Unsupported character: <char>`. -/
def encodeChar (c : Char) : Except MorseError (List Char) :=
  if c = ' ' then .ok "/".data
  else
    match lookupMorse c with
    | some m => .ok m
    | none => .error (.UnsupportedCharacter c)

/-- `text.split('').map(encodeChar)`: left-to-right, aborting at the
first thrown error (no partial result). -/
def encodeChars : List Char → Except MorseError (List (List Char))
  | [] => .ok []
  | c :: rest =>
    match encodeChar c with
    | .ok tok =>
      match encodeChars rest with
      | .ok toks => .ok (tok :: toks)
      | .error e => .error e
    | .error e => .error e

/-- `tokens.join(' ')`. -/
def joinSpace : List (List Char) → List Char
  | [] => []
  | [t] => t
  | t :: ts => t ++ ' ' :: joinSpace ts

/-- `MorseTranslator.textToMorse`: guard against empty input
(`!text` is true for the empty string), uppercase, encode each
character, join with single spaces. -/
def textToMorse (text : List Char) : Except MorseError (List Char) :=
  if text = [] then .error .InvalidInput
  else
    match encodeChars (text.map jsToUpper) with
    | .ok toks => .ok (joinSpace toks)
    | .error e => .error e

/-- `str.split(' ')` on a string separator: fields may be empty, and
`''.split(' ') = ['']`. -/
def splitOnSpace : List Char → List (List Char)
  | [] => [[]]
  | c :: rest =>
    if c = ' ' then [] :: splitOnSpace rest
    else
      match splitOnSpace rest with
      | [] => [[c]]
      | f :: fs => (c :: f) :: fs

/-- `morse.trim()`. -/
def trimList (l : List Char) : List Char :=
  ((l.dropWhile isJsWhitespace).reverse.dropWhile isJsWhitespace).reverse

/-- Helper of `collapseWs`: the flag records whether the previous
character belonged to a whitespace run already replaced by `' '`. -/
def collapseWsAux : Bool → List Char → List Char
  | _, [] => []
  | prevWs, c :: rest =>
    if isJsWhitespace c then
      if prevWs then collapseWsAux true rest
      else ' ' :: collapseWsAux true rest
    else c :: collapseWsAux false rest

/-- `.replace(/\s+/g, ' ')`: every maximal whitespace run becomes one space. -/
def collapseWs (l : List Char) : List Char :=
  collapseWsAux false l

/-- `const cleanMorse = morse.trim().replace(/\s+/g, ' ')`. -/
def cleanMorse (morse : List Char) : List Char :=
  collapseWs (trimList morse)

/-- The callback of `morseToText`'s `.map`: the token `/` becomes a
space, any other token is looked up in `TEXT_MAP`; a missing entry
throws `Invalid morse code: <token>`. -/
def decodeTok (tok : List Char) : Except MorseError Char :=
  if tok = "/".data then .ok ' '
  else
    match lookupText tok with
    | some c => .ok c
    | none => .error (.InvalidMorseCode tok)

/-- `cleanMorse.split(' ').map(decodeTok)`, left to right; the final
`.join('')` is concatenation of the single decoded characters. -/
def decodeTokens : List (List Char) → Except MorseError (List Char)
  | [] => .ok []
  | tok :: rest =>
    match decodeTok tok with
    | .ok c =>
      match decodeTokens rest with
      | .ok cs => .ok (c :: cs)
      | .error e => .error e
    | .error e => .error e

/-- `MorseTranslator.morseToText`. -/
def morseToText (morse : List Char) : Except MorseError (List Char) :=
  if morse = [] then .error .InvalidInput
  else decodeTokens (splitOnSpace (cleanMorse morse))

/-- `MorseTranslator.validateMorseCode`: non-empty and matching
`/^[.\-\s\/]+$/`. -/
def validateMorseCode (morse : List Char) : Bool :=
  !morse.isEmpty &&
  morse.all (fun c => c = '.' || c = '-' || isJsWhitespace c || c = '/')

/-- `MorseTranslator.validateText`: non-empty and, after uppercasing,
every character is a space or an own key of `MORSE_CODE_MAP`. -/
def validateText (text : List Char) : Bool :=
  !text.isEmpty &&
  (text.map jsToUpper).all (fun c => c = ' ' || (lookupMorse c).isSome)

/-- `MorseTranslator.getSupportedCharacters`:
`Object.keys(MORSE_CODE_MAP).filter(char => char !== ' ')`. -/
def getSupportedCharacters : List Char :=
  (morseCodeMapEntries.map Prod.fst).filter (fun c => c != ' ')

/-- The `direction` discriminator of a translation request. -/
inductive Direction : Type where
  | textToMorse : Direction
  | morseToText : Direction
deriving DecidableEq, Repr

/-- `MorseTranslationRequest` (the `text` / `morse` payloads may be
absent or non-strings). -/
structure MorseTranslationRequest : Type where
  text : Option (List Char)
  morse : Option (List Char)
  direction : Direction

/-- The JS falsy test `!payload` on an optional string payload: true for
a missing value and for the empty string. -/
def falsyPayload : Option (List Char) → Bool
  | none => true
  | some s => s.isEmpty

/-- `MorseTranslator.translate`, restricted to its `translated` field;
the `timestamp` field (wall-clock time) is outside the embedding and the
`original`/`direction` fields merely echo the request. -/
def translate (req : MorseTranslationRequest) : Except MorseError (List Char) :=
  match req.direction with
  | .textToMorse =>
    if falsyPayload req.text then .error .MissingInput
    else
      match req.text with
      | none => .error .MissingInput
      | some t =>
        if validateText t then textToMorse t
        else .error .UnsupportedCharacters
  | .morseToText =>
    if falsyPayload req.morse then .error .MissingInput
    else
      match req.morse with
      | none => .error .MissingInput
      | some m =>
        if validateMorseCode m then morseToText m
        else .error .InvalidFormat

/-- Calling `textToMorse` with a possibly-null/undefined/non-string
argument: the guard `!text || typeof text !== 'string'` throws
`Invalid text input`. -/
def textToMorseJs : Option (List Char) → Except MorseError (List Char)
  | none => .error .InvalidInput
  | some t => textToMorse t

/-- Calling `morseToText` with a possibly-null/undefined/non-string
argument: the guard throws `Invalid morse input`. -/
def morseToTextJs : Option (List Char) → Except MorseError (List Char)
  | none => .error .InvalidInput
  | some m => morseToText m

/-- `validateText` on a possibly-null/undefined/non-string argument:
returns `false` rather than throwing. -/
def validateTextJs : Option (List Char) → Bool
  | none => false
  | some t => validateText t

/-- `validateMorseCode` on a possibly-null/undefined/non-string
argument: returns `false` rather than throwing. -/
def validateMorseCodeJs : Option (List Char) → Bool
  | none => false
  | some m => validateMorseCode m

/-- The supported-characters listing as the spec's claim words it:
letters A–Z first, then digits 0–9, then the punctuation characters in
their declared order.  Defined from the spec's words, for comparison
with the code's `getSupportedCharacters`. -/
def specClaimedSupportedCharacters : List Char :=
  "ABCDEFGHIJKLMNOPQRSTUVWXYZ0123456789.,?'!/()&:;=+-_\"$@".data

end MorseCodec

namespace MorseCodec

deriving instance DecidableEq for Except

/-! ## Basic facts about the symbol table -/

theorem assocLookup_mem {α β : Type} [DecidableEq α] :
    ∀ {l : List (α × β)} {k : α} {v : β},
      assocLookup l k = some v → (k, v) ∈ l := by
  intro l
  induction l with
  | nil => intro k v h; simp [assocLookup] at h
  | cons p rest ih =>
    intro k v h
    obtain ⟨k0, v0⟩ := p
    by_cases hk : k = k0
    · subst hk
      simp [assocLookup] at h
      subst h
      exact List.mem_cons_self _ _
    · simp [assocLookup, hk] at h
      exact List.mem_cons_of_mem _ (ih h)

/-- Every key of the symbol table is a fixed point of `jsToUpper`. -/
theorem morseMap_keys_upper : ∀ p ∈ MORSE_CODE_MAP, jsToUpper p.1 = p.1 := by
  decide

/-- Decoding the pattern of any entry of the symbol table recovers the
entry's character. -/
theorem morseMap_decode : ∀ p ∈ MORSE_CODE_MAP, decodeTok p.2 = .ok p.1 := by
  decide

/-- Every Morse pattern of the table is non-empty and whitespace-free. -/
theorem morseMap_tokens_clean :
    ∀ p ∈ MORSE_CODE_MAP, p.2 ≠ [] ∧ ∀ ch ∈ p.2, isJsWhitespace ch = false := by
  decide

/-- No uppercase letter is itself a key of the lowercase table. -/
theorem upperPairs_values_fixed :
    ∀ p ∈ lowerUpperPairs, assocLookup lowerUpperPairs p.2 = none := by
  decide

theorem jsToUpper_idem (c : Char) : jsToUpper (jsToUpper c) = jsToUpper c := by
  unfold jsToUpper
  cases h : assocLookup lowerUpperPairs c with
  | none => simp [h]
  | some u =>
    have hmem := assocLookup_mem h
    have hfix := upperPairs_values_fixed _ hmem
    simp [hfix]

end MorseCodec

namespace MorseCodec

/-! ## Splitting and joining -/

theorem joinSpace_cons_cons (t u : List Char) (ts : List (List Char)) :
    joinSpace (t :: u :: ts) = t ++ ' ' :: joinSpace (u :: ts) := rfl

theorem splitOnSpace_no_space :
    ∀ {l : List Char}, (∀ c ∈ l, c ≠ ' ') → splitOnSpace l = [l] := by
  intro l
  induction l with
  | nil => intro _; rfl
  | cons c rest ih =>
    intro h
    have hc : c ≠ ' ' := h c (List.mem_cons_self _ _)
    have hr := ih (fun x hx => h x (List.mem_cons_of_mem _ hx))
    simp [splitOnSpace, hc, hr]

theorem splitOnSpace_append :
    ∀ {l : List Char}, (∀ c ∈ l, c ≠ ' ') → ∀ (r : List Char),
      splitOnSpace (l ++ ' ' :: r) = l :: splitOnSpace r := by
  intro l
  induction l with
  | nil => intro _ r; simp [splitOnSpace]
  | cons c rest ih =>
    intro h r
    have hc : c ≠ ' ' := h c (List.mem_cons_self _ _)
    have hr := ih (fun x hx => h x (List.mem_cons_of_mem _ hx)) r
    simp only [List.cons_append, splitOnSpace, hc, if_false, List.append_eq, hr]

theorem splitOnSpace_joinSpace :
    ∀ {toks : List (List Char)}, toks ≠ [] →
      (∀ t ∈ toks, ∀ c ∈ t, c ≠ ' ') →
      splitOnSpace (joinSpace toks) = toks := by
  intro toks
  induction toks with
  | nil => intro h _; exact absurd rfl h
  | cons t ts ih =>
    intro _ h
    cases ts with
    | nil => exact splitOnSpace_no_space (h t (List.mem_cons_self _ _))
    | cons u ts' =>
      rw [joinSpace_cons_cons,
        splitOnSpace_append (h t (List.mem_cons_self _ _)),
        ih (by simp) (fun x hx c hc => h x (List.mem_cons_of_mem _ hx) c hc)]

theorem joinSpace_ne_nil :
    ∀ {toks : List (List Char)}, toks ≠ [] → (∀ u ∈ toks, u ≠ []) →
      joinSpace toks ≠ [] := by
  intro toks hne h
  cases toks with
  | nil => exact absurd rfl hne
  | cons t ts =>
    cases ts with
    | nil => exact h t (List.mem_cons_self _ _)
    | cons u ts' => rw [joinSpace_cons_cons]; simp

theorem joinSpace_head? {t : List Char} (ts : List (List Char)) (ht : t ≠ []) :
    (joinSpace (t :: ts)).head? = t.head? := by
  cases ts with
  | nil => rfl
  | cons u ts' =>
    rw [joinSpace_cons_cons]
    cases t with
    | nil => exact absurd rfl ht
    | cons c t' => rfl

theorem joinSpace_getLast? :
    ∀ {toks : List (List Char)} {t : List Char}, (∀ u ∈ toks, u ≠ []) →
      toks.getLast? = some t → (joinSpace toks).getLast? = t.getLast? := by
  intro toks
  induction toks with
  | nil => intro t _ h; simp at h
  | cons t0 ts ih =>
    intro t h hlast
    cases ts with
    | nil => simp at hlast; subst hlast; rfl
    | cons u ts' =>
      rw [List.getLast?_cons_cons] at hlast
      have hj := ih (fun x hx => h x (List.mem_cons_of_mem _ hx)) hlast
      have hjn : joinSpace (u :: ts') ≠ [] :=
        joinSpace_ne_nil (by simp) (fun x hx => h x (List.mem_cons_of_mem _ hx))
      rw [joinSpace_cons_cons, List.getLast?_append_cons]
      cases hjs : joinSpace (u :: ts') with
      | nil => exact absurd hjs hjn
      | cons a as => rw [hjs] at hj; rw [List.getLast?_cons_cons]; exact hj

/-! ## Whitespace normalization -/

theorem collapseWsAux_nws_append :
    ∀ {t : List Char}, (∀ c ∈ t, isJsWhitespace c = false) → ∀ (r : List Char),
      collapseWsAux false (t ++ r) = t ++ collapseWsAux false r := by
  intro t
  induction t with
  | nil => intro _ r; rfl
  | cons c t' ih =>
    intro h r
    have hc : isJsWhitespace c = false := h c (List.mem_cons_self _ _)
    have hr := ih (fun x hx => h x (List.mem_cons_of_mem _ hx)) r
    simp [List.cons_append, collapseWsAux, hc, hr]

theorem collapseWsAux_true_of_head {l : List Char}
    (h : ∀ c, l.head? = some c → isJsWhitespace c = false) :
    collapseWsAux true l = collapseWsAux false l := by
  cases l with
  | nil => rfl
  | cons c rest =>
    have hc : isJsWhitespace c = false := h c rfl
    simp [collapseWsAux, hc]

theorem collapseWs_joinSpace :
    ∀ {toks : List (List Char)}, toks ≠ [] → (∀ u ∈ toks, u ≠ []) →
      (∀ u ∈ toks, ∀ c ∈ u, isJsWhitespace c = false) →
      collapseWs (joinSpace toks) = joinSpace toks := by
  intro toks
  induction toks with
  | nil => intro h _ _; exact absurd rfl h
  | cons t ts ih =>
    intro _ h1 h2
    cases ts with
    | nil =>
      have ha := collapseWsAux_nws_append (h2 t (List.mem_cons_self _ _)) []
      show collapseWsAux false (joinSpace [t]) = joinSpace [t]
      have hj : joinSpace [t] = t := rfl
      rw [hj]
      simpa [collapseWsAux] using ha
    | cons u ts' =>
      have hu : u ≠ [] := h1 u (by simp)
      have hhead : ∀ c, (joinSpace (u :: ts')).head? = some c →
          isJsWhitespace c = false := by
        intro c hc
        rw [joinSpace_head? ts' hu] at hc
        have : c ∈ u := by
          cases u with
          | nil => simp at hc
          | cons a as => simp at hc; simp [hc]
        exact h2 u (by simp) c this
      have ihh := ih (by simp) (fun x hx => h1 x (List.mem_cons_of_mem _ hx))
        (fun x hx => h2 x (List.mem_cons_of_mem _ hx))
      unfold collapseWs at ihh
      have hws : isJsWhitespace ' ' = true := by decide
      have hstep : collapseWsAux false (' ' :: joinSpace (u :: ts')) =
          ' ' :: collapseWsAux true (joinSpace (u :: ts')) := by
        simp [collapseWsAux, hws]
      show collapseWsAux false (joinSpace (t :: u :: ts')) = joinSpace (t :: u :: ts')
      rw [joinSpace_cons_cons,
        collapseWsAux_nws_append (h2 t (List.mem_cons_self _ _)),
        hstep, collapseWsAux_true_of_head hhead, ihh]

theorem dropWhile_of_head {p : Char → Bool} {l : List Char}
    (h : ∀ c, l.head? = some c → p c = false) : l.dropWhile p = l := by
  cases l with
  | nil => rfl
  | cons c rest =>
    have hc : p c = false := h c rfl
    simp [List.dropWhile_cons, hc]

theorem trimList_of_ends {l : List Char}
    (h1 : ∀ c, l.head? = some c → isJsWhitespace c = false)
    (h2 : ∀ c, l.getLast? = some c → isJsWhitespace c = false) :
    trimList l = l := by
  unfold trimList
  rw [dropWhile_of_head h1]
  rw [dropWhile_of_head (by
    intro c hc
    rw [List.head?_reverse] at hc
    exact h2 c hc)]
  exact List.reverse_reverse l

theorem cleanMorse_joinSpace {toks : List (List Char)} (hne : toks ≠ [])
    (h1 : ∀ u ∈ toks, u ≠ [])
    (h2 : ∀ u ∈ toks, ∀ c ∈ u, isJsWhitespace c = false) :
    cleanMorse (joinSpace toks) = joinSpace toks := by
  unfold cleanMorse
  have htrim : trimList (joinSpace toks) = joinSpace toks := by
    apply trimList_of_ends
    · intro c hc
      cases toks with
      | nil => exact absurd rfl hne
      | cons t ts =>
        rw [joinSpace_head? ts (h1 t (List.mem_cons_self _ _))] at hc
        have : c ∈ t := by
          cases t with
          | nil => simp at hc
          | cons a as => simp at hc; simp [hc]
        exact h2 t (List.mem_cons_self _ _) c this
    · intro c hc
      have hsome : toks.getLast?.isSome := List.getLast?_isSome.mpr hne
      obtain ⟨tl, htl⟩ := Option.isSome_iff_exists.mp hsome
      rw [joinSpace_getLast? h1 htl] at hc
      have htlm : tl ∈ toks := List.mem_of_mem_getLast? (by simp [htl])
      have : c ∈ tl := by
        cases h : tl.getLast? with
        | none => rw [h] at hc; exact absurd hc (by simp)
        | some d =>
          rw [h] at hc
          have hd : d ∈ tl := List.mem_of_mem_getLast? (by simp [h])
          simp at hc; rw [← hc]; exact hd
      exact h2 tl htlm c this
  rw [htrim]
  exact collapseWs_joinSpace hne h1 h2

end MorseCodec

namespace MorseCodec

/-! ## Encoding and decoding -/

/-- On a fully supported character list, encoding succeeds, decoding the
produced tokens recovers the input, and every token is a non-empty
whitespace-free string. -/
theorem encodeChars_roundtrip :
    ∀ {l : List Char}, (∀ c ∈ l, c = ' ' ∨ (lookupMorse c).isSome = true) →
      ∃ toks, encodeChars l = .ok toks ∧ decodeTokens toks = .ok l ∧
        toks.length = l.length ∧
        ∀ t ∈ toks, t ≠ [] ∧ ∀ ch ∈ t, isJsWhitespace ch = false := by
  intro l
  induction l with
  | nil =>
    intro _
    exact ⟨[], rfl, rfl, rfl, by simp⟩
  | cons c rest ih =>
    intro h
    obtain ⟨toks, henc, hdec, hlen, hprops⟩ :=
      ih (fun x hx => h x (List.mem_cons_of_mem _ hx))
    by_cases hc : c = ' '
    · subst hc
      refine ⟨"/".data :: toks, ?_, ?_, by simp [hlen], ?_⟩
      · simp [encodeChars, encodeChar, henc]
      · have hd : decodeTok "/".data = .ok ' ' := by decide
        simp only [decodeTokens, hd, hdec]
      · intro t ht
        rcases List.mem_cons.mp ht with h1 | h1
        · subst h1; exact ⟨by decide, by decide⟩
        · exact hprops t h1
    · rcases h c (List.mem_cons_self _ _) with h1 | h1
      · exact absurd h1 hc
      · obtain ⟨m, hm⟩ := Option.isSome_iff_exists.mp h1
        have hmem : (c, m) ∈ MORSE_CODE_MAP := assocLookup_mem hm
        have hdecm : decodeTok m = .ok c := morseMap_decode (c, m) hmem
        have hclean := morseMap_tokens_clean (c, m) hmem
        refine ⟨m :: toks, ?_, ?_, by simp [hlen], ?_⟩
        · simp only [encodeChars, encodeChar, hc, if_false, hm, henc]
        · simp only [decodeTokens, hdecm, hdec]
        · intro t ht
          rcases List.mem_cons.mp ht with h2 | h2
          · subst h2; exact hclean
          · exact hprops t h2

/-- Whitespace-free tokens contain no literal space. -/
theorem no_space_of_nws {t : List Char}
    (h : ∀ ch ∈ t, isJsWhitespace ch = false) : ∀ c ∈ t, c ≠ ' ' := by
  intro c hc he
  subst he
  have := h ' ' hc
  simp [isJsWhitespace] at this

end MorseCodec

namespace MorseCodec

theorem dropWhile_eq_nil_of_all {p : Char → Bool} :
    ∀ {l : List Char}, (∀ c ∈ l, p c = true) → l.dropWhile p = [] := by
  intro l
  induction l with
  | nil => intro _; rfl
  | cons a rest ih =>
    intro h
    have ha := h a (List.mem_cons_self _ _)
    simp [List.dropWhile_cons, ha, ih (fun x hx => h x (List.mem_cons_of_mem _ hx))]

/-! ## Claims -/

/-- C1: for every non-empty string `s` all of whose characters are drawn
from the supported character set (the space character or a key of the
symbol table) and that is already uppercased,
`morseToText (textToMorse s)` equals `s`. -/
theorem roundtrip_supported_uppercase (s : List Char) (hne : s ≠ [])
    (hsup : ∀ c ∈ s, c = ' ' ∨ (lookupMorse c).isSome = true)
    (hupper : s.map jsToUpper = s) :
    (textToMorse s).bind morseToText = .ok s := by
  rw [← hupper] at hsup
  obtain ⟨toks, henc, hdec, hlen, hprops⟩ := encodeChars_roundtrip hsup
  have htoksne : toks ≠ [] := by
    intro h
    subst h
    rw [hupper] at hlen
    exact hne (List.eq_nil_of_length_eq_zero hlen.symm)
  have htok1 : ∀ t ∈ toks, t ≠ [] := fun t ht => (hprops t ht).1
  have htok2 : ∀ t ∈ toks, ∀ c ∈ t, isJsWhitespace c = false :=
    fun t ht => (hprops t ht).2
  have hjne : joinSpace toks ≠ [] := joinSpace_ne_nil htoksne htok1
  have hclean : cleanMorse (joinSpace toks) = joinSpace toks :=
    cleanMorse_joinSpace htoksne htok1 htok2
  have hsplit : splitOnSpace (joinSpace toks) = toks :=
    splitOnSpace_joinSpace htoksne (fun t ht => no_space_of_nws (htok2 t ht))
  have htm : textToMorse s = .ok (joinSpace toks) := by
    unfold textToMorse
    rw [if_neg hne, henc]
  rw [htm]
  show morseToText (joinSpace toks) = .ok s
  unfold morseToText
  rw [if_neg hjne, hclean, hsplit, hdec, hupper]

theorem roundtrip_supported_uppercase_witness :
    (textToMorse "SOS".data).bind morseToText = .ok "SOS".data :=
  roundtrip_supported_uppercase "SOS".data (by decide) (by decide) (by decide)

/-- C2 (counterexample): the listing does NOT start with the letters A–Z:
its head is the digit `'0'`, because `Object.keys` enumerates the
integer-like digit keys first; hence it differs from the order the claim
states (letters, then digits, then punctuation). -/
theorem supported_characters_order_counterexample :
    getSupportedCharacters ≠ specClaimedSupportedCharacters ∧
    getSupportedCharacters.head? = some '0' := by
  exact ⟨by decide, by decide⟩

/-- C2 (amended): `getSupportedCharacters` returns every key of the symbol
table except the space character in the object's own-property enumeration
order — digits `0`–`9` first (integer-like keys, ascending), then letters
`A`–`Z`, then the punctuation characters in their declared order; the list
is non-empty and excludes the space.  (Stability across repeated calls is
the purity of the definition.) -/
theorem supported_characters_enumeration_order :
    getSupportedCharacters =
      "0123456789ABCDEFGHIJKLMNOPQRSTUVWXYZ.,?'!/()&:;=+-_\"$@".data ∧
    ' ' ∉ getSupportedCharacters ∧
    getSupportedCharacters ≠ [] := by
  exact ⟨by decide, by decide, by decide⟩

/-- C3: `validateMorseCode "...... ......"` returns `true` (syntactically
valid symbols) while `morseToText` on the same input fails with
`InvalidMorseCode` naming the token `......`: syntactic validation does
not imply semantic decodability. -/
theorem syntax_semantics_gap :
    validateMorseCode "...... ......".data = true ∧
    morseToText "...... ......".data =
      .error (.InvalidMorseCode "......".data) := by
  exact ⟨by decide, by decide⟩

/-- C4: the Morse patterns of distinct entries of the symbol table are
pairwise distinct, and decoding the encoding of any single supported
character returns that character. -/
theorem symbol_table_bijection :
    (MORSE_CODE_MAP.map Prod.snd).Nodup ∧
    ∀ c ∈ getSupportedCharacters,
      (textToMorse [c]).bind morseToText = .ok [c] := by
  exact ⟨by decide, by decide⟩

theorem symbol_table_bijection_witness :
    (textToMorse ['A']).bind morseToText = .ok ['A'] :=
  symbol_table_bijection.2 'A' (by decide)

/-- C5: `textToMorse` is case-insensitive — encoding the uppercased input
gives the same result as encoding the input, and in particular
`textToMorse "sos" = textToMorse "SOS" = "... --- ..."`. -/
theorem textToMorse_case_insensitive :
    (∀ s : List Char, textToMorse (s.map jsToUpper) = textToMorse s) ∧
    textToMorse "sos".data = textToMorse "SOS".data ∧
    textToMorse "SOS".data = .ok "... --- ...".data := by
  refine ⟨?_, by decide, by decide⟩
  intro s
  unfold textToMorse
  by_cases h : s = []
  · subst h; rfl
  · have hm : ¬(s.map jsToUpper = []) := by
      intro hh
      exact h (List.map_eq_nil_iff.mp hh)
    rw [if_neg h, if_neg hm]
    have hfun : jsToUpper ∘ jsToUpper = jsToUpper := funext jsToUpper_idem
    rw [List.map_map, hfun]

theorem textToMorse_case_insensitive_witness :
    textToMorse ("sos".data.map jsToUpper) = textToMorse "sos".data :=
  textToMorse_case_insensitive.1 "sos".data

end MorseCodec

namespace MorseCodec

/-- C6: a non-empty input containing (after uppercasing) a non-space
character absent from the symbol table makes `textToMorse` fail with
`UnsupportedCharacter` naming an offending character; the result is an
error, so no partial translation is produced.  In particular
`textToMorse "HELLO€"` fails naming `€`. -/
theorem unsupported_character_rejection :
    (∀ s : List Char, s ≠ [] →
      (∃ c ∈ s.map jsToUpper, c ≠ ' ' ∧ lookupMorse c = none) →
      ∃ c, textToMorse s = .error (.UnsupportedCharacter c) ∧
        c ∈ s.map jsToUpper ∧ c ≠ ' ' ∧ lookupMorse c = none) ∧
    textToMorse "HELLO€".data = .error (.UnsupportedCharacter '€') := by
  refine ⟨?_, by decide⟩
  intro s hne hex
  have key : ∀ l : List Char, (∃ c ∈ l, c ≠ ' ' ∧ lookupMorse c = none) →
      ∃ c, encodeChars l = .error (.UnsupportedCharacter c) ∧
        c ∈ l ∧ c ≠ ' ' ∧ lookupMorse c = none := by
    intro l
    induction l with
    | nil =>
      intro h
      obtain ⟨c, hc, _⟩ := h
      simp at hc
    | cons a rest ih =>
      intro h
      by_cases ha : a = ' '
      · subst ha
        obtain ⟨c, hc, hbad⟩ := h
        rcases List.mem_cons.mp hc with rfl | hmem
        · exact absurd rfl hbad.1
        · obtain ⟨c', henc, hc', hbad'⟩ := ih ⟨c, hmem, hbad⟩
          refine ⟨c', ?_, List.mem_cons_of_mem _ hc', hbad'⟩
          simp [encodeChars, encodeChar, henc]
      · cases hl : lookupMorse a with
        | none =>
          refine ⟨a, ?_, List.mem_cons_self _ _, ha, hl⟩
          simp [encodeChars, encodeChar, ha, hl]
        | some m =>
          obtain ⟨c, hc, hbad⟩ := h
          rcases List.mem_cons.mp hc with rfl | hmem
          · rw [hl] at hbad
            exact absurd hbad.2 (by simp)
          · obtain ⟨c', henc, hc', hbad'⟩ := ih ⟨c, hmem, hbad⟩
            refine ⟨c', ?_, List.mem_cons_of_mem _ hc', hbad'⟩
            simp [encodeChars, encodeChar, ha, hl, henc]
  obtain ⟨c, henc, hmem, hbad⟩ := key (s.map jsToUpper) hex
  refine ⟨c, ?_, hmem, hbad⟩
  unfold textToMorse
  rw [if_neg hne, henc]

theorem unsupported_character_rejection_witness :
    ∃ c, textToMorse "HELLO€".data = .error (.UnsupportedCharacter c) ∧
      c ∈ "HELLO€".data.map jsToUpper ∧ c ≠ ' ' ∧ lookupMorse c = none :=
  unsupported_character_rejection.1 "HELLO€".data (by decide) (by decide)

/-- C7: on empty or non-string input, `textToMorse` and `morseToText`
fail with `InvalidInput`, while `validateText` and `validateMorseCode`
return `false` rather than throwing. -/
theorem empty_invalid_input_rejection :
    textToMorseJs none = .error .InvalidInput ∧
    textToMorse [] = .error .InvalidInput ∧
    morseToTextJs none = .error .InvalidInput ∧
    morseToText [] = .error .InvalidInput ∧
    validateText [] = false ∧
    validateTextJs none = false ∧
    validateMorseCode [] = false ∧
    validateMorseCodeJs none = false := by
  exact ⟨rfl, rfl, rfl, rfl, rfl, rfl, rfl, rfl⟩

/-- C8: `morseToText` normalizes (trims and collapses whitespace runs)
before splitting, so inputs with the same normalization decode
identically; in particular `morseToText (textToMorse "HI THERE")`
reconstructs `"HI THERE"` exactly, the word break being the token `/`. -/
theorem morseToText_normalizes_spacing :
    (∀ m₁ m₂ : List Char, m₁ ≠ [] → m₂ ≠ [] →
      cleanMorse m₁ = cleanMorse m₂ → morseToText m₁ = morseToText m₂) ∧
    textToMorse "HI THERE".data = .ok ".... .. / - .... . .-. .".data ∧
    morseToText ".... .. / - .... . .-. .".data = .ok "HI THERE".data := by
  refine ⟨?_, by decide, by decide⟩
  intro m₁ m₂ h1 h2 hc
  unfold morseToText
  rw [if_neg h1, if_neg h2, hc]

theorem morseToText_normalizes_spacing_witness :
    morseToText " .-  ".data = morseToText ".-".data :=
  morseToText_normalizes_spacing.1 " .-  ".data ".-".data
    (by decide) (by decide) (by decide)

/-- C9: whenever `validateText text` returns `true`, `textToMorse text`
succeeds (the `UnsupportedCharacter` branch is unreachable under that
precondition), and `translate` in the text-to-morse direction succeeds
after its validation step. -/
theorem validateText_implies_textToMorse_ok :
    ∀ t : List Char, validateText t = true →
      (∃ m, textToMorse t = .ok m) ∧
      (∃ m, translate ⟨some t, none, .textToMorse⟩ = .ok m) := by
  intro t hv
  have hv' := hv
  unfold validateText at hv'
  rw [Bool.and_eq_true] at hv'
  obtain ⟨hne', hall⟩ := hv'
  have hie : t.isEmpty = false := by
    cases hi : t.isEmpty
    · rfl
    · rw [hi] at hne'; simp at hne'
  have hne : t ≠ [] := by
    intro h
    subst h
    simp at hie
  have hsup : ∀ c ∈ t.map jsToUpper, c = ' ' ∨ (lookupMorse c).isSome = true := by
    intro c hc
    have := List.all_eq_true.mp hall c hc
    simpa using this
  obtain ⟨toks, henc, -, -, -⟩ := encodeChars_roundtrip hsup
  have htm : textToMorse t = .ok (joinSpace toks) := by
    unfold textToMorse
    rw [if_neg hne, henc]
  refine ⟨⟨joinSpace toks, htm⟩, joinSpace toks, ?_⟩
  simp [translate, falsyPayload, hie, hv, htm]

theorem validateText_implies_textToMorse_ok_witness :
    (∃ m, textToMorse "HI".data = .ok m) ∧
    (∃ m, translate ⟨some "HI".data, none, .textToMorse⟩ = .ok m) :=
  validateText_implies_textToMorse_ok "HI".data (by decide)

/-- C10: a non-empty whitespace-only payload passes `validateMorseCode`
(syntactic check) yet `morseToText` fails with `InvalidMorseCode`
carrying the empty token — not with `InvalidInput` — and `translate` in
the morse-to-text direction therefore passes format validation and then
fails during decoding. -/
theorem whitespace_only_validation_gap :
    ∀ m : List Char, m ≠ [] → (∀ c ∈ m, isJsWhitespace c = true) →
      validateMorseCode m = true ∧
      morseToText m = .error (.InvalidMorseCode []) ∧
      translate ⟨none, some m, .morseToText⟩ = .error (.InvalidMorseCode []) := by
  intro m hne hws
  have hie : m.isEmpty = false := by
    cases m with
    | nil => exact absurd rfl hne
    | cons a l => rfl
  have hval : validateMorseCode m = true := by
    unfold validateMorseCode
    rw [Bool.and_eq_true]
    refine ⟨by simp [hie], ?_⟩
    rw [List.all_eq_true]
    intro c hc
    simp [hws c hc]
  have hdrop : m.dropWhile isJsWhitespace = [] := dropWhile_eq_nil_of_all hws
  have htrim : trimList m = [] := by
    unfold trimList
    rw [hdrop]
    simp
  have hclean : cleanMorse m = [] := by
    unfold cleanMorse
    rw [htrim]
    rfl
  have hmt : morseToText m = .error (.InvalidMorseCode []) := by
    unfold morseToText
    rw [if_neg hne, hclean]
    decide
  refine ⟨hval, hmt, ?_⟩
  simp [translate, falsyPayload, hie, hval, hmt]

theorem whitespace_only_validation_gap_witness :
    validateMorseCode " ".data = true ∧
    morseToText " ".data = .error (.InvalidMorseCode []) ∧
    translate ⟨none, some " ".data, .morseToText⟩ =
      .error (.InvalidMorseCode []) :=
  whitespace_only_validation_gap " ".data (by decide) (by decide)

end MorseCodec
